import Mathlib

/-!
Verification of the glenglat person-identity engine: the multi-script person
parsing, classification, registry resolution, and citation rendering code in
src/glenglat.py and src/essd.py.

Strings are embedded as lists of characters (Str). The Python regular
expressions that drive the tokenizer are embedded as deterministic parsers;
in each case the character classes of the pattern exclude the delimiter
characters, so the regular expression admits at most one successful
decomposition of a given input and the deterministic parser is extensionally
equal to the backtracking regex match.
-/

namespace Glenglat

/-- Character strings, modelled as lists of Unicode scalar values. -/
abbrev Str := List Char

/-! ### Character classes of the person grammar (src/glenglat.py lines 50-64) -/

/-- Whitespace characters, as matched by the regex class for whitespace. -/
def isSpaceChar (c : Char) : Bool :=
  c = ' ' || c = '\t' || c = '\n' || c = '\r' || c = '\x0b' || c = '\x0c'

/-- Inner phrase character: anything except the delimiters ( ) [ ] |
    (regex inchar). -/
def isInchar (c : Char) : Bool :=
  !(c = '(' || c = ')' || c = '[' || c = ']' || c = '|')

/-- Outer phrase character: an inner character that is not whitespace
    (regex outchar). -/
def isOutchar (c : Char) : Bool :=
  isInchar c && !isSpaceChar c

/-- A phrase per the pattern outchar inchar* outchar: at least two characters,
    delimiter-free, with non-whitespace edges. -/
def isPhrase (s : Str) : Bool :=
  decide (2 ≤ s.length) && s.all isInchar
    && isOutchar (s.headD ' ') && isOutchar (s.getLastD ' ')

/-! ### Splitting and joining, mirroring the Python str.split / str.join -/

/-- Prepend a character to the first part of a split (helper for splitOnChar). -/
def consHead (c : Char) : List Str → List Str
  | [] => [[c]]
  | w :: ws => (c :: w) :: ws

/-- Split on every occurrence of a single character, keeping empty parts,
    as the Python str.split with a one-character separator does. -/
def splitOnChar (sep : Char) : Str → List Str
  | [] => [[]]
  | c :: cs =>
    if c = sep then [] :: splitOnChar sep cs
    else consHead c (splitOnChar sep cs)

/-- Split a string on single spaces (the Python value of latin.split with a
    space argument). -/
def splitSp : Str → List Str := splitOnChar ' '

/-- Join a list of strings with a separator (the Python str.join). -/
def joinWith (sep : Str) : List Str → Str
  | [] => []
  | [w] => w
  | w :: v :: ws => w ++ sep ++ joinWith sep (v :: ws)

/-- Join with single spaces. -/
def joinSp : List Str → Str := joinWith [' ']

/-- Split on a multi-character separator, scanning left to right without
    overlap, as the Python str.split does. The extra fuel argument makes the
    recursion structural; the wrapper supplies more fuel than the length of
    the string, which is always enough. -/
def splitOnListF (sep : Str) : Nat → Str → List Str
  | _, [] => [[]]
  | 0, s => [s]
  | Nat.succ n, c :: cs =>
    if sep ≠ [] && sep.isPrefixOf (c :: cs) then
      [] :: splitOnListF sep n ((c :: cs).drop sep.length)
    else consHead c (splitOnListF sep n cs)

/-- Split on a multi-character separator (the Python str.split). -/
def splitOnList (sep s : Str) : List Str :=
  splitOnListF sep (s.length + 1) s

/-- Remove every occurrence of a pattern, scanning left to right without
    overlap, as the Python str.replace with an empty replacement does.
    Fuelled exactly like splitOnListF. -/
def replaceAllF (pat : Str) : Nat → Str → Str
  | _, [] => []
  | 0, s => s
  | Nat.succ n, c :: cs =>
    if pat ≠ [] && pat.isPrefixOf (c :: cs) then
      replaceAllF pat n ((c :: cs).drop pat.length)
    else c :: replaceAllF pat n cs

/-- Remove every occurrence of a pattern from a string. -/
def replaceAll (pat s : Str) : Str :=
  replaceAllF pat (s.length + 1) s

/-! ### squeeze_whitespace and strip_curly_braces (src/glenglat.py 424-445) -/

/-- Collapse runs of whitespace into a single space. The flag records whether
    the previous character was whitespace. -/
def collapseAux : Bool → Str → Str
  | _, [] => []
  | prevSpace, c :: cs =>
    if isSpaceChar c then
      if prevSpace then collapseAux true cs
      else ' ' :: collapseAux true cs
    else c :: collapseAux false cs

/-- Strip whitespace from both ends (the Python str.strip). -/
def stripEnds (s : Str) : Str :=
  ((s.dropWhile isSpaceChar).reverse.dropWhile isSpaceChar).reverse

/-- Squeeze whitespace in a string: strip, then collapse internal runs
    (squeeze_whitespace in src/glenglat.py). -/
def squeeze_whitespace (s : Str) : Str :=
  collapseAux false (stripEnds s)

/-- Strip curly braces from a string (strip_curly_braces in src/glenglat.py):
    removes every brace character. -/
def strip_curly_braces (s : Str) : Str :=
  s.filter (fun c => !(c = '\x7b' || c = '\x7d'))

/-- Whether a string contains a curly brace (the regex search for a brace in
    parse_person_string). -/
def hasBrace (s : Str) : Bool :=
  s.any (fun c => c = '\x7b' || c = '\x7d')

/-! ### ORCID and email recognition (src/glenglat.py 50-53) -/

/-- Word character of the email pattern. The Python class also admits
    non-ASCII word characters; the inputs of this development are ASCII, so
    the ASCII subset is embedded. -/
def isWordChar (c : Char) : Bool :=
  c.isAlphanum || c = '_'

/-- Full match of the ORCID pattern: four hyphen-separated groups of four,
    the first three all digits, the last three digits followed by a digit
    or X. -/
def isOrcid (s : Str) : Bool :=
  match splitOnChar '-' s with
  | [a, b, c, d] =>
    a.length = 4 && a.all Char.isDigit &&
    b.length = 4 && b.all Char.isDigit &&
    c.length = 4 && c.all Char.isDigit &&
    d.length = 4 && (d.take 3).all Char.isDigit &&
    ((d.getLastD ' ').isDigit || d.getLastD ' ' = 'X')
  | _ => false

/-- Full match of the email pattern: a local part of word characters, dots
    and hyphens, an at-sign, a dot-free domain label, and one or more
    dot-separated word-character labels of length at least two. Since the
    character classes exclude the at-sign and the labels exclude dots, the
    pattern decomposes an input in at most one way. -/
def isEmail (s : Str) : Bool :=
  match splitOnChar '@' s with
  | [loc, dom] =>
    loc ≠ [] && loc.all (fun c => isWordChar c || c = '.' || c = '-') &&
    (match splitOnChar '.' dom with
     | d0 :: rest =>
       d0 ≠ [] && d0.all (fun c => isWordChar c || c = '-') &&
       rest ≠ [] && rest.all (fun t => 2 ≤ t.length && t.all isWordChar)
     | [] => false)
  | _ => false

/-! ### Unicode range tests used by infer_name_parts (src/glenglat.py 374-413) -/

/-- Whether any character lies in the Cyrillic letter ranges of the pattern
    (uppercase and lowercase basic Cyrillic plus Io). -/
def hasCyr (s : Str) : Bool :=
  s.any (fun c => (0x410 ≤ c.toNat && c.toNat ≤ 0x44F)
    || c.toNat = 0x401 || c.toNat = 0x451)

/-- Whether any character lies in the CJK unified ideograph range 4E00-9FFF. -/
def hasCJK (s : Str) : Bool :=
  s.any (fun c => 0x4E00 ≤ c.toNat && c.toNat ≤ 0x9FFF)

/-- Whether any character lies in the Hangul syllable range AC00-D7AF. -/
def hasHangul (s : Str) : Bool :=
  s.any (fun c => 0xAC00 ≤ c.toNat && c.toNat ≤ 0xD7AF)

/-- Whether any character lies in the Hiragana/Katakana range 3040-30FF. -/
def hasKana (s : Str) : Bool :=
  s.any (fun c => 0x3040 ≤ c.toNat && c.toNat ≤ 0x30FF)

/-! ### The consecutive-words search inside infer_name_parts

The Latin-only branch searches for a run of non-space non-period characters,
a space, a second such run, and then a space or the end of the string. The
match at a given position is deterministic (each run must extend to the next
space or period), so the search reduces to trying the pattern at every
suffix. -/

/-- Character allowed inside a run of the consecutive-words pattern:
    not a space and not a period. -/
def isPlainChar (c : Char) : Bool :=
  !(c = ' ' || c = '.')

/-- Whether the second half of the consecutive-words pattern matches at the
    start of a string: a nonempty run of plain characters followed by a space
    or the end of the string. -/
def goodSecond (s : Str) : Bool :=
  !(s.takeWhile isPlainChar).isEmpty &&
  (match s.dropWhile isPlainChar with
   | [] => true
   | c :: _ => c = ' ')

/-- Whether the consecutive-words pattern matches at the start of a string:
    a nonempty plain run, a space, and then goodSecond. -/
def consecMatchAt (s : Str) : Bool :=
  match s.dropWhile isPlainChar with
  | ' ' :: rest => !(s.takeWhile isPlainChar).isEmpty && goodSecond rest
  | _ => false

/-- Search for the consecutive-words pattern anywhere in the string
    (the regex search in the Latin-only branch of infer_name_parts). -/
def consecSearch : Str → Bool
  | [] => false
  | c :: cs => consecMatchAt (c :: cs) || consecSearch cs

/-! ### Data model -/

/-- Script families recognised by the engine. -/
inductive Script
  | latin
  | cyrillic
  | chinese
  | kanji
  | kana
  | hangul
deriving DecidableEq, Repr

/-- A family/given split of a name. -/
structure NameSplit where
  family : Str
  given : Str
deriving DecidableEq, Repr

/-- Result dictionary of infer_name_parts: an optional split of the original
    name, a split of the Latin name, and the script key when present. -/
structure InferredParts where
  name : Option NameSplit
  latin : NameSplit
  script : Option Script
deriving DecidableEq, Repr

/-- A full name together with its family/given split
    (the dictionaries with keys name, family, given). -/
structure NameParts where
  name : Str
  family : Str
  given : Str
deriving DecidableEq, Repr

/-- Result of parse_person_string: title with braces stripped, optional
    original-script name, Latin name, and optional identifiers. -/
structure ParsedPerson where
  title : Str
  name : Option NameParts
  latin : NameParts
  orcid : Option Str
  email : Option Str
deriving DecidableEq, Repr

/-- Error values raised by the engine (Python ValueError instances, keyed by
    their message and the data interpolated into it). -/
inductive Err
  | invalidPerson (s : Str)
  | bracesMissing (title : Str)
  | braceParseFailed (s : Str)
  | ambiguousFamily (s : Str)
  | cyrillicAmbiguous (name latin : Str)
  | multipleMatches
  | orcidMismatch
  | familyNotUnique (family name : Str)
  | unnamedChar (c : Char)
  | peopleNotFound (missing : List Str)
deriving DecidableEq, Repr

/-- Whether an Except value is a success. -/
def exceptIsOk : Except Err α → Bool
  | .ok _ => true
  | .error _ => false

instance {ε α : Type} [DecidableEq ε] [DecidableEq α] :
    DecidableEq (Except ε α) := fun x y =>
  match x, y with
  | .ok a, .ok b =>
    if h : a = b then isTrue (by rw [h])
    else isFalse (by intro he; injection he; contradiction)
  | .error a, .error b =>
    if h : a = b then isTrue (by rw [h])
    else isFalse (by intro he; injection he; contradiction)
  | .ok _, .error _ => isFalse (fun he => Except.noConfusion he)
  | .error _, .ok _ => isFalse (fun he => Except.noConfusion he)

/-! ### infer_name_parts (src/glenglat.py 337-421) -/

/-- Infer given and family names from a name and its Latin transliteration
    (infer_name_parts in src/glenglat.py). Returns ok none where the Python
    function returns None (the caller reports ambiguity), and an error for
    the Cyrillic branch, which raises directly. -/
def infer_name_parts (latin : Str) (name : Option Str) :
    Except Err (Option InferredParts) :=
  let latin_words := splitSp latin
  match name with
  | none =>
    -- Latin: last word is the family name
    if (decide (2 < latin_words.length) && consecSearch latin)
        || ((latin_words.getLastD []).getLastD ' ' == '.') then
      .ok none
    else
      .ok (some ⟨none, ⟨latin_words.getLastD [], joinSp latin_words.dropLast⟩, none⟩)
  | some n =>
    let words := splitSp n
    -- Cyrillic: last word is the family name
    if hasCyr n then
      if decide (words.length < 2) || !(words.length == latin_words.length) then
        .error (.cyrillicAmbiguous n latin)
      else
        .ok (some ⟨some ⟨words.getLastD [], joinSp words.dropLast⟩,
                   ⟨latin_words.getLastD [], joinSp latin_words.dropLast⟩,
                   some .cyrillic⟩)
    else if hasCJK n then
      if decide (2 < words.length) then .ok none
      -- Kanji (Japanese): first word is the family name
      else if words.length == 2 then
        if !(latin_words.length == 2) then .ok none
        else
          .ok (some ⟨some ⟨words.headD [], words.getLastD []⟩,
                     ⟨latin_words.headD [], latin_words.getLastD []⟩,
                     some .kanji⟩)
      -- Chinese: first character of original, first word of latin
      else
        if !(latin_words.length == 2) then .ok none
        else
          .ok (some ⟨some ⟨n.take 1, n.drop 1⟩,
                     ⟨latin_words.headD [], joinSp (latin_words.drop 1)⟩,
                     some .chinese⟩)
    -- Hangul (Korean): first character of original, first word of latin
    else if hasHangul n then
      if decide (1 < words.length) then .ok none
      else
        .ok (some ⟨some ⟨n.take 1, n.drop 1⟩,
                   ⟨latin_words.headD [], joinSp (latin_words.drop 1)⟩,
                   some .hangul⟩)
    -- Kana (Japanese): first word is the family name
    else if hasKana n then
      if !(words.length == 2) || !(latin_words.length == 2) then .ok none
      else
        .ok (some ⟨some ⟨words.headD [], words.getLastD []⟩,
                   ⟨latin_words.headD [], latin_words.getLastD []⟩,
                   some .kana⟩)
    else .ok none

/-! ### parse_name_parts (src/glenglat.py 448-470) -/

/-- First match of the brace pattern: scan for an opening brace followed by a
    nonempty run of non-closing-brace characters and a closing brace; return
    the run together with the full matched text. -/
def findBraceMatch : Str → Option (Str × Str)
  | [] => none
  | c :: rest =>
    if c = '\x7b' then
      let content := rest.takeWhile (fun d => !(d = '\x7d'))
      if !content.isEmpty && !(rest.drop content.length).isEmpty then
        some (content, c :: content ++ ['\x7d'])
      else findBraceMatch rest
    else findBraceMatch rest

/-- Parse given and family names from a name with curly braces
    (parse_name_parts in src/glenglat.py). Returns (family, given). -/
def parse_name_parts (name : Str) : Option (Str × Str) :=
  match findBraceMatch name with
  | none => none
  | some (family, matched) =>
    some (family, squeeze_whitespace (replaceAll matched name))

/-! ### The person regular expression (src/glenglat.py 56-64) -/

/-- Capture groups of the person pattern: the raw title span, the first
    phrase, the optional bracketed Latin phrase, and the optional
    identifier. -/
structure PersonMatch where
  title : Str
  name : Str
  latin : Option Str
  orcid : Option Str
  email : Option Str
deriving DecidableEq, Repr

/-- Match the title subpattern phrase maybe followed by a bracketed phrase.
    Phrases contain no bracket characters, so the decomposition at the first
    opening bracket is the only candidate the regex can accept. -/
def matchTitle (t : Str) : Option (Str × Option Str) :=
  let pre := t.takeWhile (fun c => !(c = '['))
  if pre.length = t.length then
    if isPhrase t then some (t, none) else none
  else
    let nm := pre.dropLast
    let rest := t.drop (pre.length + 1)
    if !pre.isEmpty && pre.getLastD ' ' = ' '
        && !rest.isEmpty && rest.getLastD ' ' = ']'
        && isPhrase nm && isPhrase rest.dropLast then
      some (nm, some rest.dropLast)
    else none

/-- Split off the optional parenthesised identifier. Phrases contain no
    parentheses and neither identifier class admits them, so the
    decomposition at the first opening parenthesis is the only candidate. -/
def splitIdent (s : Str) : Option (Str × Option Str × Option Str) :=
  let pre := s.takeWhile (fun c => !(c = '('))
  if pre.length = s.length then some (s, none, none)
  else
    let rest := s.drop (pre.length + 1)
    if !pre.isEmpty && pre.getLastD ' ' = ' '
        && !rest.isEmpty && rest.getLastD ' ' = ')' then
      let ident := rest.dropLast
      if isOrcid ident then some (pre.dropLast, some ident, none)
      else if isEmail ident then some (pre.dropLast, none, some ident)
      else none
    else none

/-- Full match of the person pattern. -/
def matchPersonRegex (s : Str) : Option PersonMatch :=
  match splitIdent s with
  | none => none
  | some (t, orc, em) =>
    match matchTitle t with
    | none => none
    | some (nm, lat) => some ⟨t, nm, lat, orc, em⟩

/-! ### parse_person_string (src/glenglat.py 473-525) -/

/-- Expand a bare ORCID to its full URL. -/
def expandOrcid (o : Str) : Str :=
  ("https://orcid.org/").toList ++ o

/-- Handle one side (latin or original) of a brace-marked title: the side
    must itself contain a brace, and the brace pattern must parse. -/
def parseBracedName (titleRaw whole s : Str) : Except Err NameParts :=
  if hasBrace s = false then .error (.bracesMissing titleRaw)
  else
    match parse_name_parts s with
    | none => .error (.braceParseFailed whole)
    | some fg => .ok ⟨strip_curly_braces s, fg.1, fg.2⟩

/-- Family and given name extraction of parse_person_string, after the name
    and latin groups have been normalised: split both sides by braces when
    the title carries them, otherwise infer by script. -/
def parsePersonGroups (s : Str) (m : PersonMatch) (nameStr : Option Str)
    (latinStr : Str) : Except Err ParsedPerson :=
  if hasBrace m.title then
    match parseBracedName m.title s latinStr with
    | .error e => .error e
    | .ok latinParts =>
      match nameStr with
      | some n =>
        match parseBracedName m.title s n with
        | .error e => .error e
        | .ok nameParts =>
          .ok ⟨strip_curly_braces m.title, some nameParts, latinParts,
               m.orcid.map expandOrcid, m.email⟩
      | none =>
        .ok ⟨strip_curly_braces m.title, none, latinParts,
             m.orcid.map expandOrcid, m.email⟩
  else
    match infer_name_parts latinStr nameStr with
    | .error e => .error e
    | .ok none => .error (.ambiguousFamily s)
    | .ok (some inf) =>
      .ok ⟨strip_curly_braces m.title,
           (match nameStr, inf.name with
            | some n, some sp => some ⟨n, sp.family, sp.given⟩
            | _, _ => none),
           ⟨latinStr, inf.latin.family, inf.latin.given⟩,
           m.orcid.map expandOrcid, m.email⟩

/-- Parse a person string (parse_person_string in src/glenglat.py): match the
    person pattern, normalise which side is Latin (with no bracketed form,
    the name is assumed Latin), split family and given names by braces or by
    script inference, strip braces from the title, and expand the ORCID. -/
def parse_person_string (s : Str) : Except Err ParsedPerson :=
  match matchPersonRegex s with
  | none => .error (.invalidPerson s)
  | some m =>
    match m.latin with
    | some l => parsePersonGroups s m (some m.name) l
    | none => parsePersonGroups s m none m.name

/-! ### Script classification (ScriptClassifier) -/

/-- Whether a character is an ASCII Latin letter. -/
def isLatinLetter (c : Char) : Bool :=
  ('A' ≤ c && c ≤ 'Z') || ('a' ≤ c && c ≤ 'z')

/-- Modelled from the spec: infer_script, the ScriptClassifier, is called by
    src/essd.py but its definition is not among the provided source files.
    Per the specification it determines which script family a string belongs
    to by Unicode range membership, with unsupported scripts an error rather
    than a silent fallback. The ranges and their order follow the sibling
    checks in infer_name_parts; a lone ideographic string classifies as
    Chinese, since Kanji and Kana require transliteration context. -/
def infer_script (s : Str) : Option Script :=
  if hasCyr s then some .cyrillic
  else if hasCJK s then some .chinese
  else if hasHangul s then some .hangul
  else if hasKana s then some .kana
  else if s.any isLatinLetter then some .latin
  else none

/-- Whether the detected script is Latin or Cyrillic (the membership test
    used by src/essd.py). -/
def isLatinOrCyrillic (s : Str) : Bool :=
  match infer_script s with
  | some .latin => true
  | some .cyrillic => true
  | _ => false

/-! ### abbreviate_given_name and render_name_for_essd (src/essd.py 4-51) -/

/-- Abbreviate a given name (abbreviate_given_name in src/essd.py): each
    space- or hyphen-separated word longer than one character and not ending
    in a period becomes its first letter plus a period, provided the whole
    name is in Latin or Cyrillic script; separators are rebuilt by the
    joins. -/
def abbreviate_given_name (name : Str) : Str :=
  let script := isLatinOrCyrillic name
  joinSp ((splitSp name).map (fun part =>
    joinWith ['-'] ((splitOnChar '-' part).map (fun word =>
      if decide (1 < word.length) && !(word.getLastD ' ' = '.') && script then
        word.take 1 ++ ['.']
      else word))))

/-- Render a name for ESSD (render_name_for_essd in src/essd.py): for Latin
    or Cyrillic script, the family name, a comma, and the abbreviated given
    name; otherwise the full name unchanged. -/
def render_name_for_essd (n : NameParts) : Str :=
  if isLatinOrCyrillic n.name then
    n.family ++ (", ").toList ++ abbreviate_given_name n.given
  else n.name

/-- ESSD rendering of a parsed person with no registry resolution: the name
    dictionary chosen as in format_author_for_essd (the original-script side
    when present, else the Latin side), rendered by render_name_for_essd. -/
def render_parsed_for_essd (p : ParsedPerson) : Str :=
  match p.name with
  | some n => render_name_for_essd n
  | none => render_name_for_essd p.latin

/-- Composition of parsing and ESSD rendering on one raw token. -/
def essd_roundtrip (s : Str) : Except Err Str :=
  match parse_person_string s with
  | .error e => .error e
  | .ok p => .ok (render_parsed_for_essd p)

/-! ### The person registry and find_person (src/glenglat.py 629-702)

The registry rows are built from the curated person table by
build_person_list, which reads a CSV file; that file access is the external
boundary, so the list of person records is a parameter here. -/

/-- A registry entry as produced by build_person_list: title variants,
    emails, optional ORCID, Latin name with its split, and optional
    original-script name. -/
structure Person where
  titles : List Str
  emails : List Str
  orcid : Option Str
  latin : NameParts
  name : Option Str
deriving DecidableEq, Repr

/-- Result of find_person: the matched latin name, original name and ORCID. -/
structure FoundPerson where
  latin : NameParts
  name : Option Str
  orcid : Option Str
deriving DecidableEq, Repr

/-- Python truthiness of an optional string: present and nonempty. -/
def truthy : Option Str → Bool
  | none => false
  | some s => !s.isEmpty

/-- The match condition of the find_person loop: ORCID equality, email
    membership, or title membership, each guarded by the truthiness of the
    corresponding argument. -/
def keyMatches (title orcid email : Option Str) (p : Person) : Bool :=
  (truthy orcid && p.orcid == orcid) ||
  (truthy email && p.emails.contains (email.getD [])) ||
  (truthy title && p.titles.contains (title.getD []))

/-- Find a person in the registry (find_person in src/glenglat.py): collect
    all matching entries; none gives no result, several is an error; for a
    unique match with a caller ORCID, a different stored ORCID is an error
    and a missing stored ORCID adopts the caller value. -/
def find_person (people : List Person) (title orcid email : Option Str) :
    Except Err (Option FoundPerson) :=
  match people.filter (keyMatches title orcid email) with
  | [] => .ok none
  | [p] =>
    -- the result dictionary carries the latin, name and orcid keys of p
    if truthy orcid then
      if truthy p.orcid && !(p.orcid == orcid) then
        .error .orcidMismatch
      else if !truthy p.orcid then
        -- adoption of the caller ORCID (reported as a console message)
        .ok (some ⟨p.latin, p.name, orcid⟩)
      else .ok (some ⟨p.latin, p.name, p.orcid⟩)
    else .ok (some ⟨p.latin, p.name, p.orcid⟩)
  | _ => .error .multipleMatches

/-! ### strip_diacritics (src/glenglat.py 742-764)

The Python function consults the Unicode character name table through
unicodedata.name and unicodedata.lookup. The table is environment data, not
repository code; a finite fragment sufficient for the characters of this
development is embedded. unicodedata.name raises for characters without a
name assignment (for example control characters), which the fragment records
as none. -/

/-- Uppercase a character: ASCII letters and basic Cyrillic (the behaviour
    of the Python str.upper on the alphabets of this development). -/
def charUpper (c : Char) : Char :=
  if 'a' ≤ c && c ≤ 'z' then Char.ofNat (c.toNat - 32)
  else if 0x430 ≤ c.toNat && c.toNat ≤ 0x44F then Char.ofNat (c.toNat - 0x20)
  else if c.toNat = 0x451 then Char.ofNat 0x401
  else c

/-- Uppercase a string. -/
def pyUpper : Str → Str := List.map charUpper

/-- Fragment of the Unicode character name table (unicodedata.name) covering
    the characters used in this development; characters with no name
    assignment map to none, as unicodedata.name raises for them. -/
def unicodeName (c : Char) : Option Str :=
  if 'A' ≤ c && c ≤ 'Z' then
    some (("LATIN CAPITAL LETTER ").toList ++ [c])
  else if 'a' ≤ c && c ≤ 'z' then
    some (("LATIN SMALL LETTER ").toList ++ [charUpper c])
  else if c = ' ' then some (("SPACE").toList)
  else if c = 'Ø' then some (("LATIN CAPITAL LETTER O WITH STROKE").toList)
  else if c = 'ø' then some (("LATIN SMALL LETTER O WITH STROKE").toList)
  else if c = 'Å' then some (("LATIN CAPITAL LETTER A WITH RING ABOVE").toList)
  else if c = 'å' then some (("LATIN SMALL LETTER A WITH RING ABOVE").toList)
  else none

/-- Inverse fragment of the Unicode name table (unicodedata.lookup). -/
def unicodeLookup (n : Str) : Option Char :=
  match splitOnList (("LETTER ").toList) n with
  | [pre, suf] =>
    if pre = ("LATIN CAPITAL ").toList then
      match suf with
      | [c] => if 'A' ≤ c && c ≤ 'Z' then some c else none
      | _ => none
    else if pre = ("LATIN SMALL ").toList then
      match suf with
      | [c] => if 'A' ≤ c && c ≤ 'Z' then some (Char.ofNat (c.toNat + 32)) else none
      | _ => none
    else none
  | _ => if n = ("SPACE").toList then some ' ' else none

/-- First index of a pattern inside a string (the Python str.find). -/
def indexOfSeq (pat : Str) : Str → Option Nat
  | [] => if pat = [] then some 0 else none
  | c :: cs =>
    if pat.isPrefixOf (c :: cs) then some 0
    else (indexOfSeq pat cs).map (· + 1)

/-- Per-character step of strip_diacritics: look up the character name; if
    it contains a WITH suffix, truncate the name and look the base character
    up, keeping the original character when the truncated name is unknown.
    A character with no name is an error, as unicodedata.name raises. -/
def replaceChar (c : Char) : Except Err Char :=
  match unicodeName c with
  | none => .error (.unnamedChar c)
  | some description =>
    match indexOfSeq ((" WITH ").toList) description with
    | none => .ok c
    | some cutoff =>
      match unicodeLookup (description.take cutoff) with
      | some base => .ok base
      | none => .ok c

/-- Strict left-to-right effectful map over Except, mirroring a Python loop
    that raises at the first failing element. -/
def mapME (f : α → Except Err β) : List α → Except Err (List β)
  | [] => .ok []
  | x :: xs =>
    match f x with
    | .error e => .error e
    | .ok y =>
      match mapME f xs with
      | .error e => .error e
      | .ok ys => .ok (y :: ys)

/-- Remove diacritics from a string (strip_diacritics in src/glenglat.py). -/
def strip_diacritics (s : Str) : Except Err Str :=
  mapME replaceChar s

/-- The pure per-character rule of strip_diacritics on named characters. -/
def stripCharPure (c : Char) : Char :=
  match unicodeName c with
  | none => c
  | some description =>
    match indexOfSeq ((" WITH ").toList) description with
    | none => c
    | some cutoff => (unicodeLookup (description.take cutoff)).getD c

/-! ### uppercase_family_name (src/glenglat.py 722-739)

The pattern anchors the family name at the start of the string, after a
space, or after an opening square bracket, with a lookahead requiring a
space, a closing square bracket, or the end. findall and sub scan left to
right without overlap; the fuelled scanner below performs the same scan,
returning the match count and the substituted string together. The family
name is interpolated into the pattern verbatim; the family names of this
development contain no regex metacharacters, so it is matched literally. -/

/-- Whether the lookahead of the family pattern holds at a position: the
    next character is a space or a closing bracket, or the string ends. -/
def famLookahead : Str → Bool
  | [] => true
  | c :: _ => c = ' ' || c = ']'

/-- Scan for non-overlapping family-name matches, counting them and
    substituting the uppercase replacement, with the flag tracking whether
    the scan is at the start of the string (the caret alternative). The fuel
    makes the recursion structural; the wrapper supplies enough. -/
def famScanF (fam upper : Str) : Nat → Str → Bool → Nat × Str
  | _, [], _ => (0, [])
  | 0, s, _ => (0, s)
  | Nat.succ n, s, atStart =>
    if atStart && !fam.isEmpty && fam.isPrefixOf s && famLookahead (s.drop fam.length) then
      let r := famScanF fam upper n (s.drop fam.length) false
      (r.1 + 1, upper ++ r.2)
    else
      match s with
      | [] => (0, [])
      | c :: cs =>
        if (c = ' ' || c = '[') && !fam.isEmpty && fam.isPrefixOf cs
            && famLookahead (cs.drop fam.length) then
          let r := famScanF fam upper n (cs.drop fam.length) false
          (r.1 + 1, c :: (upper ++ r.2))
        else
          let r := famScanF fam upper n cs false
          (r.1, c :: r.2)

/-- Count of family-name matches in a name (the length of findall). -/
def famCount (fam nm : Str) : Nat :=
  (famScanF fam (pyUpper fam) (nm.length + 1) nm true).1

/-- The substitution of re.sub: every match replaced by the uppercased
    family name. -/
def famSub (fam nm : Str) : Str :=
  (famScanF fam (pyUpper fam) (nm.length + 1) nm true).2

/-- Uppercase the family name inside a full name or title
    (uppercase_family_name in src/glenglat.py): an error unless the pattern
    matches exactly once, else the substituted string. -/
def uppercase_family_name (nm fam : Str) : Except Err Str :=
  if (decide (famCount fam nm = 0) || decide (1 < famCount fam nm)) then
    .error (.familyNotUnique fam nm)
  else .ok (famSub fam nm)

/-! ### convert_source_to_csl (src/glenglat.py 528-608)

The source row arrives from the source table reader with NA replaced by
None; the row is therefore a record of optional strings, except for the id
(always present) and the year, whose int conversion happens at this
boundary. -/

/-- A row of the source table, as passed to convert_source_to_csl. -/
structure Source where
  id : Str
  year : Int
  srcType : Option Str
  title : Option Str
  url : Option Str
  language : Option Str
  container_title : Option Str
  volume : Option Str
  issue : Option Str
  page : Option Str
  version : Option Str
  author : Option Str
  editor : Option Str
  collection_title : Option Str
  collection_number : Option Str
  publisher : Option Str
deriving DecidableEq, Repr

/-- The non_latin rendering mode of convert_source_to_csl. -/
inductive NonLatin
  | literal
  | given
deriving DecidableEq, Repr

/-- A CSL name object: literal, or family and given. -/
structure NameObj where
  literal : Option Str
  family : Option Str
  given : Option Str
deriving DecidableEq, Repr

/-- A value of the CSL dictionary. -/
inductive CslValue
  | s (v : Str)
  | names (v : List NameObj)
  | issued (year : Int)
deriving DecidableEq, Repr

/-- Python truthiness of a CSL value: empty strings and empty name lists are
    falsy, the issued dictionary is always truthy. -/
def truthyVal : CslValue → Bool
  | .s v => !v.isEmpty
  | .names v => !v.isEmpty
  | .issued _ => true

/-- Lift an optional string to an optional CSL value. -/
def optVal (o : Option Str) : Option CslValue :=
  o.map .s

/-- Format one parsed person as a CSL name object, per the non_latin mode. -/
def formatName (nl : NonLatin) (p : ParsedPerson) : NameObj :=
  match p.name with
  | some np =>
    match nl with
    | .given =>
      ⟨none, some p.latin.family,
       some (p.latin.given ++ (" [").toList ++ np.name ++ ("]").toList)⟩
    | .literal => ⟨some p.title, none, none⟩
  | none => ⟨none, some p.latin.family, some p.latin.given⟩

/-- Parse a person list field: split on the bar separator and parse each
    token, raising at the first failure; an absent or empty field gives an
    empty list. -/
def parsePersonList (nl : NonLatin) (field : Option Str) :
    Except Err (List NameObj) :=
  match field with
  | none => .ok []
  | some fs =>
    if fs.isEmpty then .ok []
    else
      mapME (fun str =>
        match parse_person_string str with
        | .error e => .error e
        | .ok p => .ok (formatName nl p)) (splitOnList ((" | ").toList) fs)

/-- Keep a keyed CSL entry when its value is present and truthy (the dict
    comprehension at the end of convert_source_to_csl). -/
def cslKeep (kv : Str × Option CslValue) : Option (Str × CslValue) :=
  match kv.2 with
  | some v => if truthyVal v then some (kv.1, v) else none
  | none => none

/-- The derived DOI of a source: the URL with the DOI prefix removed, when
    the URL is truthy and carries that prefix. -/
def deriveDoi (url : Option Str) : Option Str :=
  match url with
  | some u =>
    if !u.isEmpty && (("https://doi.org/").toList).isPrefixOf u then
      some (replaceAll (("https://doi.org/").toList) u)
    else none
  | none => none

/-- Build the CSL dictionary from a source row and preformatted author and
    editor lists: derive the DOI from the URL, remap personal-communication
    sources, assemble the keyed entries, and keep only truthy values. -/
def buildCsl (source : Source) (zotero_citation_key : Bool)
    (authors editors : List NameObj) : List (Str × CslValue) :=
  let doi := deriveDoi source.url
  let source_type : Option Str :=
    if source.srcType = some (("personal-communication").toList) then
      some (("personal_communication").toList)
    else source.srcType
  let source_title : Option Str :=
    if source.srcType = some (("personal-communication").toList) then
      some (("Personal communication").toList)
    else source.title
  List.filterMap cslKeep
    ([(("id").toList, optVal (some source.id)),
      (("citation-key").toList, optVal (some source.id)),
      (("author").toList, some (.names authors)),
      (("issued").toList, some (.issued source.year)),
      (("type").toList, optVal source_type),
      (("title").toList, optVal source_title),
      (("DOI").toList, optVal doi),
      (("URL").toList, if truthy doi then none else optVal source.url),
      (("language").toList, optVal source.language),
      (("container-title").toList, optVal source.container_title),
      (("volume").toList, optVal source.volume),
      (("issue").toList, optVal source.issue),
      (("page").toList, optVal source.page),
      (("version").toList, optVal source.version),
      (("editor").toList, some (.names editors)),
      (("collection-title").toList, optVal source.collection_title),
      (("collection-number").toList, optVal source.collection_number),
      (("publisher").toList, optVal source.publisher)]
     ++ (if zotero_citation_key then
           [(("note").toList, optVal (some ((("Citation key: ").toList) ++ source.id)))]
         else []))

/-- Convert a source row to CSL-JSON (convert_source_to_csl in
    src/glenglat.py). -/
def convert_source_to_csl (source : Source) (non_latin : NonLatin)
    (zotero_citation_key : Bool) : Except Err (List (Str × CslValue)) :=
  match parsePersonList non_latin source.author with
  | .error e => .error e
  | .ok authors =>
    match parsePersonList non_latin source.editor with
    | .error e => .error e
    | .ok editors => .ok (buildCsl source zotero_citation_key authors editors)

/-! ### render_author_list (src/glenglat.py 767-805)

The author strings are gathered from the source table (split on the bar
separator, with duplicates dropped); that table access is the external
boundary, so the token list and the registry are parameters. -/

/-- Parse one author token and look it up in the registry, as the body of
    the render_author_list loop does. -/
def resolveToken (registry : List Person) (s : Str) :
    Except Err (Option FoundPerson) :=
  match parse_person_string s with
  | .error e => .error e
  | .ok p => find_person registry (some p.title) p.orcid p.email

/-- The gathering loop of render_author_list: resolve each token in order,
    collecting found people and the tokens with no registry match, and
    raising at the first parse or lookup failure. -/
def gatherPeople (registry : List Person) : List Str →
    Except Err (List FoundPerson × List Str)
  | [] => .ok ([], [])
  | s :: rest =>
    match resolveToken registry s with
    | .error e => .error e
    | .ok r =>
      match gatherPeople registry rest with
      | .error e => .error e
      | .ok pm =>
        match r with
        | some f => .ok (f :: pm.1, pm.2)
        | none => .ok (pm.1, s :: pm.2)

/-- Code-point comparison of strings (the Python string less-than). -/
def strLtB : Str → Str → Bool
  | [], [] => false
  | [], _ :: _ => true
  | _ :: _, [] => false
  | a :: as_, b :: bs =>
    if a.toNat < b.toNat then true
    else if a = b then strLtB as_ bs
    else false

/-- Lexicographic comparison of the sort-key pairs. -/
def pairLe (a b : Str × Str) : Bool :=
  strLtB a.1 b.1 || (a.1 == b.1 && (strLtB a.2 b.2 || a.2 == b.2))

/-- Insert into a sorted list, after every element that compares at most as
    large (a stable insertion, as the Python sorted is stable). -/
def insertSorted (le : α → α → Bool) (x : α) : List α → List α
  | [] => [x]
  | y :: ys => if le y x then y :: insertSorted le x ys else x :: y :: ys

/-- Insertion sort by a boolean comparison. -/
def sortByKey (le : α → α → Bool) : List α → List α
  | [] => []
  | x :: xs => insertSorted le x (sortByKey le xs)

/-- The sort key of render_author_list: diacritic-stripped uppercase Latin
    family and given names. Stripping can raise, and the Python sorted
    computes every key before comparing. -/
def sortKeyOf (p : FoundPerson) : Except Err (Str × Str) :=
  match strip_diacritics p.latin.family with
  | .error e => .error e
  | .ok f =>
    match strip_diacritics p.latin.given with
    | .error e => .error e
    | .ok g => .ok (pyUpper f, pyUpper g)

/-- Drop duplicates keeping the first occurrence (the Python
    dict.fromkeys). -/
def dedupFirst : List Str → List Str
  | [] => []
  | s :: rest => s :: dedupFirst (rest.filter (fun t => !(t == s)))
termination_by l => l.length
decreasing_by
  simp only [List.length_cons]
  exact Nat.lt_succ_of_le (List.length_filter_le _ _)

/-- Pair a resolved person with its sort key, as the key computation of the
    Python sorted does. -/
def keyedEntry (p : FoundPerson) : Except Err ((Str × Str) × FoundPerson) :=
  match sortKeyOf p with
  | .error e => .error e
  | .ok k => .ok (k, p)

/-- Render one sorted entry: uppercase the family name inside the Latin
    name, and prefix the original-script name when present. -/
def renderEntry (kp : (Str × Str) × FoundPerson) : Except Err Str :=
  match uppercase_family_name kp.2.latin.name kp.2.latin.family with
  | .error e => .error e
  | .ok u =>
    .ok (match kp.2.name with
      | some nm => nm ++ (" [").toList ++ u ++ ("]").toList
      | none => u)

/-- Whether a token parses and resolves to no registry match (the condition
    that puts it on the missing list). -/
def missesRegistry (registry : List Person) (s : Str) : Bool :=
  match resolveToken registry s with
  | .ok none => true
  | _ => false

/-- Render the deduplicated, sorted author list (render_author_list in
    src/glenglat.py): resolve every token, fail if any token has no registry
    match (listing all of them), sort by the diacritic-free key, uppercase
    each family name inside the Latin title, prefix the original-script name
    when present, and drop duplicates. -/
def render_author_list (strings : List Str) (registry : List Person) :
    Except Err (List Str) :=
  match gatherPeople registry strings with
  | .error e => .error e
  | .ok (people, missing) =>
    if missing = [] then
      match mapME keyedEntry people with
      | .error e => .error e
      | .ok keyed =>
        match mapME renderEntry (sortByKey (fun a b => pairLe a.1 b.1) keyed) with
        | .error e => .error e
        | .ok outs => .ok (dedupFirst outs)
    else .error (.peopleNotFound missing)

/-! ### Claim-side predicates and fixtures -/

/-- A word fit to be the second member of a consecutive pair: nonempty and
    free of spaces and periods (non-abbreviated). -/
def plainWord (w : Str) : Bool :=
  !w.isEmpty && w.all isPlainChar

/-- A word fit to be the first member of a consecutive pair: nonempty and
    not ending in a period (not an abbreviation). -/
def endsNonPeriod (w : Str) : Bool :=
  !w.isEmpty && !(w.getLastD ' ' = '.')

/-- Word-level reading of the consecutive-words search: some adjacent pair
    of words has a non-abbreviated first member and a period-free second
    member. -/
def wordPairs : List Str → Bool
  | u :: v :: rest => (endsNonPeriod u && plainWord v) || wordPairs (v :: rest)
  | _ => false

/-- Registry fixture: a person with one title variant and no ORCID. -/
def regPersonA : Person :=
  ⟨[("Shin Sugiyama").toList], [], none,
   ⟨("Sugiyama Shin").toList, ("Sugiyama").toList, ("Shin").toList⟩,
   some (("杉山 慎").toList)⟩

/-- Registry fixture: a person whose stored family name does not occur in
    the stored Latin name. -/
def regPersonBad : Person :=
  ⟨[("Xx Yy").toList], [], none,
   ⟨("Aa Bb").toList, ("Zz").toList, ("Qq").toList⟩, none⟩

/-- Source fixture: a personal communication that carries its own title. -/
def pcSource : Source :=
  ⟨("mc2024").toList, 2024, some (("personal-communication").toList),
   some (("Ice temperatures").toList),
   none, none, none, none, none, none, none, none, none, none, none, none⟩

/-! ## Lemmas about splitting and joining -/

theorem splitOnChar_ne_nil (sep : Char) (s : Str) : splitOnChar sep s ≠ [] := by
  induction s with
  | nil => simp [splitOnChar]
  | cons c cs ih =>
    simp only [splitOnChar]
    split
    · simp
    · cases h : splitOnChar sep cs with
      | nil => exact absurd h ih
      | cons w ws => simp [consHead]

theorem joinWith_consHead (sep : Str) (c : Char) (l : List Str) (h : l ≠ []) :
    joinWith sep (consHead c l) = c :: joinWith sep l := by
  match l with
  | [] => exact absurd rfl h
  | [w] => simp [consHead, joinWith]
  | w :: v :: ws => simp [consHead, joinWith]

theorem joinWith_splitOnChar (sep : Char) (s : Str) :
    joinWith [sep] (splitOnChar sep s) = s := by
  induction s with
  | nil => simp [splitOnChar, joinWith]
  | cons c cs ih =>
    simp only [splitOnChar]
    by_cases h : c = sep
    · subst h
      rw [if_pos rfl]
      cases hs : splitOnChar c cs with
      | nil => exact absurd hs (splitOnChar_ne_nil _ _)
      | cons w ws =>
        have : joinWith [c] ([] :: w :: ws) = c :: joinWith [c] (w :: ws) := by
          simp [joinWith]
        rw [this, ← hs, ih]
    · rw [if_neg h, joinWith_consHead _ _ _ (splitOnChar_ne_nil _ _), ih]

theorem not_mem_splitOnChar (sep : Char) (s : Str) :
    ∀ w ∈ splitOnChar sep s, sep ∉ w := by
  induction s with
  | nil =>
    intro w hw
    simp only [splitOnChar, List.mem_singleton] at hw
    subst hw; simp
  | cons c cs ih =>
    intro w hw
    simp only [splitOnChar] at hw
    split at hw
    · rcases List.mem_cons.mp hw with h1 | h1
      · subst h1; simp
      · exact ih w h1
    · rename_i hne
      cases hs : splitOnChar sep cs with
      | nil => exact absurd hs (splitOnChar_ne_nil _ _)
      | cons x xs =>
        rw [hs] at hw
        simp only [consHead] at hw
        rcases List.mem_cons.mp hw with h1 | h1
        · subst h1
          intro hmem
          rcases List.mem_cons.mp hmem with h2 | h2
          · exact hne h2.symm
          · exact ih x (hs ▸ List.mem_cons_self x xs) h2
        · exact ih w (hs ▸ List.mem_cons_of_mem x h1)

/-! ## Claim C7: abbreviation of given names -/

/-- Claim C7: for every given-name string, abbreviate_given_name replaces
    each space- or hyphen-separated word longer than one character and not
    already ending in a period with its first letter plus a period,
    rebuilding the original hyphen and space separators, and returns input
    that is not Latin or Cyrillic unchanged; in particular the hyphenated
    name abbreviates to initials and the Chinese name passes through. -/
theorem abbreviate_given_name_spec :
    (∀ name : Str, isLatinOrCyrillic name = true →
      abbreviate_given_name name =
        joinSp ((splitSp name).map (fun part =>
          joinWith ['-'] ((splitOnChar '-' part).map (fun word =>
            if 1 < word.length ∧ word.getLastD ' ' ≠ '.' then
              word.take 1 ++ ['.']
            else word))))) ∧
    (∀ name : Str, isLatinOrCyrillic name = false →
      abbreviate_given_name name = name) ∧
    abbreviate_given_name (("Jane-Doe").toList) = ("J.-D.").toList ∧
    abbreviate_given_name (("时银").toList) = ("时银").toList := by
  refine ⟨?_, ?_, by decide, by decide⟩
  · intro name h
    simp only [abbreviate_given_name, h, Bool.and_true]
    congr 1
    apply List.map_congr_left
    intro part _
    congr 1
    apply List.map_congr_left
    intro word _
    simp only [Bool.and_eq_true, decide_eq_true_eq, Bool.not_eq_true',
      decide_eq_false_iff_not]
  · intro name h
    simp only [abbreviate_given_name, h, Bool.and_false]
    have hfalse : ∀ w : Str,
        (if (false = true) then w.take 1 ++ ['.'] else w) = w := fun _ => rfl
    simp only [hfalse]
    have inner : ∀ part : Str,
        joinWith ['-'] ((splitOnChar '-' part).map (fun word => word)) = part := by
      intro part
      rw [List.map_id']
      exact joinWith_splitOnChar '-' part
    simp only [inner]
    rw [List.map_id']
    exact joinWith_splitOnChar ' ' name

/-- Witness for claim C7 at concrete inputs: a Cyrillic name follows the
    abbreviation formula and a Chinese name passes through unchanged. -/
theorem abbreviate_given_name_spec_witness :
    abbreviate_given_name (("孙维君").toList) = ("孙维君").toList :=
  abbreviate_given_name_spec.2.1 (("孙维君").toList) (by decide)

/-! ## Lemmas about the consecutive-words search -/

theorem dropWhile_head_false (p : Char → Bool) :
    ∀ (l : Str) (c : Char) (r : Str), List.dropWhile p l = c :: r → p c = false := by
  intro l
  induction l with
  | nil => intro c r h; simp [List.dropWhile] at h
  | cons a l' ih =>
    intro c r h
    rw [List.dropWhile_cons] at h
    split at h
    · exact ih c r h
    · rename_i hpa
      injection h with h1 _
      subst h1
      exact Bool.eq_false_iff.mpr hpa

theorem consecMatchAt_no_space (s : Str) (h : ' ' ∉ s) : consecMatchAt s = false := by
  unfold consecMatchAt
  split
  · rename_i rest heq
    have hmem : ' ' ∈ List.dropWhile isPlainChar s := by
      rw [heq]; exact List.mem_cons_self _ _
    exact absurd (List.Sublist.mem hmem (List.dropWhile_sublist _)) h
  · rfl

theorem consecSearch_no_space (s : Str) (h : ' ' ∉ s) : consecSearch s = false := by
  induction s with
  | nil => rfl
  | cons c cs ih =>
    have h1 : ' ' ∉ cs := fun hm => h (List.mem_cons_of_mem _ hm)
    simp only [consecSearch, consecMatchAt_no_space _ h, ih h1, Bool.or_self]

theorem consecMatchAt_append_space (u t : Str) (hu : u ≠ []) (hsp : ' ' ∉ u) :
    consecMatchAt (u ++ ' ' :: t) = (u.all isPlainChar && goodSecond t) := by
  by_cases hall : u.all isPlainChar = true
  · have hdu : List.dropWhile isPlainChar u = [] :=
      List.dropWhile_eq_nil_iff.mpr (fun x hx => List.all_eq_true.mp hall x hx)
    have htu : List.takeWhile isPlainChar u = u :=
      List.takeWhile_eq_self_iff.mpr (fun x hx => List.all_eq_true.mp hall x hx)
    have hdw : List.dropWhile isPlainChar (u ++ ' ' :: t) = ' ' :: t := by
      rw [List.dropWhile_append, hdu]
      simp [List.dropWhile_cons, isPlainChar]
    have htw : List.takeWhile isPlainChar (u ++ ' ' :: t) = u := by
      rw [List.takeWhile_append, if_pos (by rw [htu])]
      have h2 : List.takeWhile isPlainChar (' ' :: t) = [] := by
        simp [List.takeWhile_cons, isPlainChar]
      rw [h2, List.append_nil]
    simp only [consecMatchAt, hdw, htw, hall, Bool.true_and]
    have : (!u.isEmpty) = true := by
      cases u with
      | nil => exact absurd rfl hu
      | cons _ _ => rfl
    rw [this, Bool.true_and]
  · have hf : u.all isPlainChar = false := Bool.eq_false_iff.mpr hall
    have hdne : List.dropWhile isPlainChar u ≠ [] := by
      intro hnil
      rw [List.dropWhile_eq_nil_iff] at hnil
      exact hall (List.all_eq_true.mpr hnil)
    cases hdu : List.dropWhile isPlainChar u with
    | nil => exact absurd hdu hdne
    | cons c r =>
      have hcne : c ≠ ' ' := by
        intro he; subst he
        have hmem : ' ' ∈ List.dropWhile isPlainChar u := by
          rw [hdu]; exact List.mem_cons_self _ _
        exact hsp (List.Sublist.mem hmem (List.dropWhile_sublist _))
      have hdw : List.dropWhile isPlainChar (u ++ ' ' :: t) = c :: (r ++ ' ' :: t) := by
        rw [List.dropWhile_append, hdu]
        simp
      simp only [consecMatchAt, hdw, hf, Bool.false_and]
      split
      · rename_i rest heq
        injection heq with h1 _
        exact absurd h1 hcne
      · rfl

theorem allPlain_or_endsNonPeriod (c : Char) (w : Str) (hc : c ≠ ' ') (hw : ' ' ∉ w) :
    ((c :: w).all isPlainChar || endsNonPeriod w) = endsNonPeriod (c :: w) := by
  cases w with
  | nil =>
    by_cases hd : c = '.'
    · subst hd; simp [endsNonPeriod, isPlainChar, List.getLastD]
    · simp [endsNonPeriod, isPlainChar, List.getLastD, hd, hc]
  | cons d w' =>
    have hlast : (c :: d :: w').getLastD ' ' = (d :: w').getLastD ' ' := by
      rw [List.getLastD_eq_getLast?, List.getLastD_eq_getLast?, List.getLast?_cons_cons]
    by_cases hp : endsNonPeriod (d :: w') = true
    · have : endsNonPeriod (c :: d :: w') = true := by
        simp only [endsNonPeriod, Bool.and_eq_true] at hp ⊢
        exact ⟨rfl, by rw [hlast]; exact hp.2⟩
      rw [hp, this, Bool.or_true]
    · have hpf : endsNonPeriod (d :: w') = false := Bool.eq_false_iff.mpr hp
      have hdot : (d :: w').getLastD ' ' = '.' := by
        by_contra hne
        rw [List.getLastD_eq_getLast?] at hne
        exact hp (by simp [endsNonPeriod, hne])
      have hdot2 : (d :: w').getLast?.getD ' ' = '.' := by
        rw [← List.getLastD_eq_getLast?]; exact hdot
      have hrhs : endsNonPeriod (c :: d :: w') = false := by
        simp [endsNonPeriod, hdot2]
      have hmem : '.' ∈ d :: w' := by
        have hm := List.getLastD_mem_cons (d :: w') ' '
        rw [hdot] at hm
        rcases List.mem_cons.mp hm with h1 | h1
        · exact absurd h1 (by decide)
        · exact h1
      have hallf : (c :: d :: w').all isPlainChar = false := by
        rw [Bool.eq_false_iff]
        intro hall
        have hdotall := List.all_eq_true.mp hall '.' (List.mem_cons_of_mem _ hmem)
        simp [isPlainChar] at hdotall
      rw [hallf, hpf, hrhs, Bool.or_self]

theorem consecSearch_append_space (w t : Str) (hw : ' ' ∉ w) :
    consecSearch (w ++ ' ' :: t) =
      ((endsNonPeriod w && goodSecond t) || consecSearch t) := by
  induction w with
  | nil =>
    simp only [List.nil_append, consecSearch]
    have hm : consecMatchAt (' ' :: t) = false := by
      simp [consecMatchAt, List.dropWhile_cons, List.takeWhile_cons, isPlainChar]
    rw [hm]
    simp [endsNonPeriod]
  | cons c w' ih =>
    have hw' : ' ' ∉ w' := fun h => hw (List.mem_cons_of_mem _ h)
    have hc : c ≠ ' ' := fun h => hw (h ▸ List.mem_cons_self c w')
    have hstep : consecSearch ((c :: w') ++ ' ' :: t) =
        (consecMatchAt ((c :: w') ++ ' ' :: t) || consecSearch (w' ++ ' ' :: t)) := rfl
    rw [hstep, consecMatchAt_append_space (c :: w') t (by simp) hw, ih hw']
    cases hg : goodSecond t with
    | false => simp
    | true =>
      simp only [Bool.and_true]
      rw [← Bool.or_assoc]
      rw [allPlain_or_endsNonPeriod c w' hc hw']

theorem goodSecond_no_space (v : Str) (hv : ' ' ∉ v) :
    goodSecond v = plainWord v := by
  by_cases hall : v.all isPlainChar = true
  · have hdu : List.dropWhile isPlainChar v = [] :=
      List.dropWhile_eq_nil_iff.mpr (fun x hx => List.all_eq_true.mp hall x hx)
    have htu : List.takeWhile isPlainChar v = v :=
      List.takeWhile_eq_self_iff.mpr (fun x hx => List.all_eq_true.mp hall x hx)
    simp [goodSecond, plainWord, hdu, htu, hall]
  · have hf : v.all isPlainChar = false := Bool.eq_false_iff.mpr hall
    have hdne : List.dropWhile isPlainChar v ≠ [] := by
      intro hnil
      rw [List.dropWhile_eq_nil_iff] at hnil
      exact hall (List.all_eq_true.mpr hnil)
    cases hdu : List.dropWhile isPlainChar v with
    | nil => exact absurd hdu hdne
    | cons c r =>
      have hcne : c ≠ ' ' := by
        intro he; subst he
        have hmem : ' ' ∈ List.dropWhile isPlainChar v := by
          rw [hdu]; exact List.mem_cons_self _ _
        exact hv (List.Sublist.mem hmem (List.dropWhile_sublist _))
      simp [goodSecond, plainWord, hdu, hf, hcne]

theorem goodSecond_append_space (v t : Str) (hv : ' ' ∉ v) :
    goodSecond (v ++ ' ' :: t) = plainWord v := by
  by_cases hall : v.all isPlainChar = true
  · have hdu : List.dropWhile isPlainChar v = [] :=
      List.dropWhile_eq_nil_iff.mpr (fun x hx => List.all_eq_true.mp hall x hx)
    have htu : List.takeWhile isPlainChar v = v :=
      List.takeWhile_eq_self_iff.mpr (fun x hx => List.all_eq_true.mp hall x hx)
    have hdw : List.dropWhile isPlainChar (v ++ ' ' :: t) = ' ' :: t := by
      rw [List.dropWhile_append, hdu]
      simp [List.dropWhile_cons, isPlainChar]
    have htw : List.takeWhile isPlainChar (v ++ ' ' :: t) = v := by
      rw [List.takeWhile_append, if_pos (by rw [htu])]
      have h2 : List.takeWhile isPlainChar (' ' :: t) = [] := by
        simp [List.takeWhile_cons, isPlainChar]
      rw [h2, List.append_nil]
    simp [goodSecond, plainWord, hdw, htw, hall]
  · have hf : v.all isPlainChar = false := Bool.eq_false_iff.mpr hall
    have hdne : List.dropWhile isPlainChar v ≠ [] := by
      intro hnil
      rw [List.dropWhile_eq_nil_iff] at hnil
      exact hall (List.all_eq_true.mpr hnil)
    cases hdu : List.dropWhile isPlainChar v with
    | nil => exact absurd hdu hdne
    | cons c r =>
      have hcne : c ≠ ' ' := by
        intro he; subst he
        have hmem : ' ' ∈ List.dropWhile isPlainChar v := by
          rw [hdu]; exact List.mem_cons_self _ _
        exact hv (List.Sublist.mem hmem (List.dropWhile_sublist _))
      have hdw : List.dropWhile isPlainChar (v ++ ' ' :: t) = c :: (r ++ ' ' :: t) := by
        rw [List.dropWhile_append, hdu]
        simp
      simp [goodSecond, plainWord, hdw, hf, hcne]

theorem consecSearch_join (ws : List Str) (h : ∀ w ∈ ws, ' ' ∉ w) :
    consecSearch (joinSp ws) = wordPairs ws := by
  induction ws with
  | nil => rfl
  | cons w ws' ih =>
    cases ws' with
    | nil =>
      show consecSearch (joinWith [' '] [w]) = wordPairs [w]
      rw [show joinWith [' '] [w] = w from rfl]
      rw [consecSearch_no_space w (h w (List.mem_cons_self _ _))]
      rfl
    | cons v ws'' =>
      have hj : joinSp (w :: v :: ws'') = w ++ ' ' :: joinSp (v :: ws'') := by
        show joinWith [' '] (w :: v :: ws'') = w ++ ' ' :: joinWith [' '] (v :: ws'')
        rw [joinWith]
        simp
      rw [hj, consecSearch_append_space w _ (h w (List.mem_cons_self _ _))]
      rw [ih (fun x hx => h x (List.mem_cons_of_mem _ hx))]
      have hgv : goodSecond (joinSp (v :: ws'')) = plainWord v := by
        cases ws'' with
        | nil =>
          rw [show joinSp [v] = v from rfl]
          exact goodSecond_no_space v (h v (List.mem_cons_of_mem _ (List.mem_cons_self _ _)))
        | cons x xs =>
          have hj2 : joinSp (v :: x :: xs) = v ++ ' ' :: joinSp (x :: xs) := by
            show joinWith [' '] (v :: x :: xs) = v ++ ' ' :: joinWith [' '] (x :: xs)
            rw [joinWith]
            simp
          rw [hj2]
          exact goodSecond_append_space v _
            (h v (List.mem_cons_of_mem _ (List.mem_cons_self _ _)))
      rw [hgv]
      rfl

theorem consecSearch_eq_wordPairs (s : Str) :
    consecSearch s = wordPairs (splitSp s) := by
  conv_lhs => rw [← joinWith_splitOnChar ' ' s]
  exact consecSearch_join (splitSp s) (fun w hw hsp => not_mem_splitOnChar ' ' s w hw hsp)

/-! ## Claim C3: the Latin-only splitting rule -/

/-- Reduction of infer_name_parts on a Latin-only input to its two-outcome
    form (definitional). -/
theorem infer_none_eq (latin : Str) :
    infer_name_parts latin none =
      (if (decide (2 < (splitSp latin).length) && consecSearch latin)
          || (((splitSp latin).getLastD []).getLastD ' ' == '.') then
        (.ok none : Except Err (Option InferredParts))
      else
        .ok (some ⟨none, ⟨(splitSp latin).getLastD [],
                          joinSp (splitSp latin).dropLast⟩, none⟩)) := rfl

/-- Claim C3: for every Latin-only name, infer_name_parts takes the last
    space-delimited word as the family name and the rest as the given name,
    and fails as ambiguous exactly when (a) there are more than two words
    and some adjacent pair of words has a non-abbreviated first member and a
    period-free second member, or (b) the last word ends with a period; the
    abbreviated example splits and the three-plain-word example fails. The
    ambiguous failure is the None return of the Python function, which makes
    the caller raise. -/
theorem infer_latin_only_spec :
    (∀ latin : Str,
      ((infer_name_parts latin none = .ok none) ↔
        ((2 < (splitSp latin).length ∧ wordPairs (splitSp latin) = true)
          ∨ ((splitSp latin).getLastD []).getLastD ' ' = '.')) ∧
      (infer_name_parts latin none ≠ .ok none →
        infer_name_parts latin none =
          .ok (some ⟨none, ⟨(splitSp latin).getLastD [],
                            joinSp (splitSp latin).dropLast⟩, none⟩))) ∧
    infer_name_parts (("Jakob F. Steiner").toList) none =
      .ok (some ⟨none, ⟨("Steiner").toList, ("Jakob F.").toList⟩, none⟩) ∧
    infer_name_parts (("Jon Ove Van Pelt").toList) none = .ok none := by
  refine ⟨?_, by decide, by decide⟩
  intro latin
  by_cases hc : ((decide (2 < (splitSp latin).length) && consecSearch latin)
      || (((splitSp latin).getLastD []).getLastD ' ' == '.')) = true
  · rw [infer_none_eq, if_pos hc]
    rw [Bool.or_eq_true, Bool.and_eq_true, decide_eq_true_eq] at hc
    refine ⟨⟨fun _ => ?_, fun _ => rfl⟩, fun hne => absurd rfl hne⟩
    rcases hc with ⟨h1, h2⟩ | h3
    · exact Or.inl ⟨h1, by rw [← consecSearch_eq_wordPairs]; exact h2⟩
    · exact Or.inr (by rwa [beq_iff_eq] at h3)
  · have hcf := Bool.eq_false_iff.mpr hc
    rw [infer_none_eq, if_neg hc]
    rw [Bool.or_eq_false_iff] at hcf
    refine ⟨⟨fun habs => ?_, fun hp => ?_⟩, fun _ => rfl⟩
    · simp at habs
    · exfalso
      rcases hp with ⟨h1, h2⟩ | h3
      · have ht : (decide (2 < (splitSp latin).length) && consecSearch latin) = true := by
          rw [Bool.and_eq_true, decide_eq_true_eq]
          exact ⟨h1, by rw [consecSearch_eq_wordPairs]; exact h2⟩
        rw [hcf.1] at ht
        exact Bool.noConfusion ht
      · exact absurd h3 (beq_eq_false_iff_ne.mp hcf.2)

/-- Witness for claim C3: a concrete two-word Latin name splits into its
    last word as family and the first as given. -/
theorem infer_latin_only_spec_witness :
    infer_name_parts (("Ab Cd").toList) none =
      .ok (some ⟨none, ⟨("Cd").toList, ("Ab").toList⟩, none⟩) :=
  (infer_latin_only_spec.1 (("Ab Cd").toList)).2 (by decide)

/-! ## Claim C1: concrete parses -/

/-- Claim C1: the Kanji example parses into its title, original split, Latin
    split and expanded ORCID URL; the braced Latin example parses with no
    original name, the braced span as family, the rest as given, braces
    stripped from the title, and the email identifier. -/
theorem parse_person_string_examples :
    parse_person_string (("杉山 慎 [Sugiyama Shin] (0000-0001-5323-9558)").toList) =
      .ok ⟨("杉山 慎 [Sugiyama Shin]").toList,
           some ⟨("杉山 慎").toList, ("杉山").toList, ("慎").toList⟩,
           ⟨("Sugiyama Shin").toList, ("Sugiyama").toList, ("Shin").toList⟩,
           some (("https://orcid.org/0000-0001-5323-9558").toList),
           none⟩ ∧
    parse_person_string (("Emmanuel \x7bLe Meur\x7d (test@email.fr)").toList) =
      .ok ⟨("Emmanuel Le Meur").toList,
           none,
           ⟨("Emmanuel Le Meur").toList, ("Le Meur").toList, ("Emmanuel").toList⟩,
           none,
           some (("test@email.fr").toList)⟩ :=
  ⟨by decide, by decide⟩

/-! ## Claim C4: the Hangul splitting rule -/

/-- Counterexample to claim C4: a Hangul original with a three-word Latin
    transliteration succeeds (the code never checks the Latin word count),
    while the claim requires exactly two Latin words for success. -/
theorem infer_hangul_counterexample :
    infer_name_parts (("Ahn Jin Ho").toList) (some (("안진호").toList)) =
      .ok (some ⟨some ⟨("안").toList, ("진호").toList⟩,
                 ⟨("Ahn").toList, ("Jin Ho").toList⟩, some .hangul⟩) ∧
    (splitSp (("Ahn Jin Ho").toList)).length = 3 :=
  ⟨by decide, by decide⟩

/-- Claim C4 as amended: for a Hangul original (one that triggered neither
    the Cyrillic nor the CJK-ideograph branch), infer_name_parts succeeds
    exactly when the original is a single unspaced word, splitting off the
    first character as family; the Latin family is the first Latin word and
    the Latin given name the remaining words, with no constraint on the
    Latin word count. -/
theorem infer_hangul_amended (latin n : Str)
    (h1 : hasCyr n = false) (h2 : hasCJK n = false) (h3 : hasHangul n = true) :
    (1 < (splitSp n).length →
      infer_name_parts latin (some n) = .ok none) ∧
    ((splitSp n).length = 1 →
      infer_name_parts latin (some n) =
        .ok (some ⟨some ⟨n.take 1, n.drop 1⟩,
                   ⟨(splitSp latin).headD [], joinSp ((splitSp latin).drop 1)⟩,
                   some .hangul⟩)) := by
  have heq : infer_name_parts latin (some n) =
      (if decide (1 < (splitSp n).length) then
        (.ok none : Except Err (Option InferredParts))
       else
        .ok (some ⟨some ⟨n.take 1, n.drop 1⟩,
                   ⟨(splitSp latin).headD [], joinSp ((splitSp latin).drop 1)⟩,
                   some .hangul⟩)) := by
    simp only [infer_name_parts, h1, h2, h3, Bool.false_eq_true, if_false, if_true]
  constructor
  · intro hlen
    rw [heq, if_pos (decide_eq_true hlen)]
  · intro hlen
    rw [heq, if_neg]
    intro hd
    rw [decide_eq_true_eq] at hd
    omega

/-- Witness for claim C4 as amended: a single-word Hangul original with a
    two-word Latin transliteration splits as stated. -/
theorem infer_hangul_amended_witness :
    infer_name_parts (("Ahn Jinho").toList) (some (("안진호").toList)) =
      .ok (some ⟨some ⟨("안").toList, ("진호").toList⟩,
                 ⟨("Ahn").toList, ("Jinho").toList⟩, some .hangul⟩) :=
  (infer_hangul_amended (("Ahn Jinho").toList) (("안진호").toList)
    (by decide) (by decide) (by decide)).2 (by decide)

/-! ## Claim C2: registry resolution -/

/-- Claim C2: for every registry and lookup triple, find_person returns no
    result when no entry matches any supplied key; fails with the
    multiple-matches error when more than one entry matches; and for a
    unique match with a caller-supplied ORCID, fails with the mismatch error
    when the entry carries a different non-null ORCID, and adopts the caller
    ORCID when the entry carries none. -/
theorem find_person_resolution (people : List Person) (title orcid email : Option Str) :
    (people.filter (keyMatches title orcid email) = [] →
      find_person people title orcid email = .ok none) ∧
    (1 < (people.filter (keyMatches title orcid email)).length →
      find_person people title orcid email = .error .multipleMatches) ∧
    (∀ p, people.filter (keyMatches title orcid email) = [p] →
      truthy orcid = true → truthy p.orcid = true → p.orcid ≠ orcid →
      find_person people title orcid email = .error .orcidMismatch) ∧
    (∀ p, people.filter (keyMatches title orcid email) = [p] →
      truthy orcid = true → p.orcid = none →
      find_person people title orcid email = .ok (some ⟨p.latin, p.name, orcid⟩)) := by
  refine ⟨?_, ?_, ?_, ?_⟩
  · intro h
    simp only [find_person, h]
  · intro h
    cases hf : people.filter (keyMatches title orcid email) with
    | nil => rw [hf] at h; simp at h
    | cons q qs =>
      cases qs with
      | nil => rw [hf] at h; simp at h
      | cons r rs => simp only [find_person, hf]
  · intro p hp ht hto hne
    simp only [find_person, hp]
    rw [if_pos ht]
    have hcond : (truthy p.orcid && !(p.orcid == orcid)) = true := by
      rw [Bool.and_eq_true, Bool.not_eq_true']
      exact ⟨hto, beq_eq_false_iff_ne.mpr hne⟩
    rw [if_pos hcond]
  · intro p hp ht hnone
    simp only [find_person, hp, hnone]
    rw [if_pos ht]
    rfl

/-- Witness for claim C2: in a singleton registry matched by title, a
    caller-supplied ORCID is adopted when the entry has none. -/
theorem find_person_resolution_witness :
    find_person [regPersonA] (some (("Shin Sugiyama").toList))
        (some (("https://orcid.org/0000-0001-5323-9558").toList)) none =
      .ok (some ⟨⟨("Sugiyama Shin").toList, ("Sugiyama").toList, ("Shin").toList⟩,
                 some (("杉山 慎").toList),
                 some (("https://orcid.org/0000-0001-5323-9558").toList)⟩) :=
  (find_person_resolution [regPersonA] (some (("Shin Sugiyama").toList))
      (some (("https://orcid.org/0000-0001-5323-9558").toList)) none).2.2.2
    regPersonA (by decide) (by decide) (by decide)

/-! ## Claim C8: diacritic stripping -/

/-- Counterexample to claim C8: strip_diacritics is not total over all
    strings — on a character with no Unicode name assignment (the newline
    control character), unicodedata.name raises, so the string does not pass
    through unchanged. -/
theorem strip_diacritics_counterexample :
    strip_diacritics ['\n'] = .error (.unnamedChar '\n') := by decide

/-- Claim C8 as amended: strip_diacritics succeeds on every string whose
    characters all carry a Unicode name, mapping each character whose name
    has a WITH suffix to the base character named by the truncated name (and
    leaving every other character unchanged); a character with no name
    raises. The diacritic example evaluates as claimed. -/
theorem strip_diacritics_amended :
    (∀ s : Str, (∀ c ∈ s, (unicodeName c).isSome = true) →
      strip_diacritics s = .ok (s.map stripCharPure)) ∧
    strip_diacritics (("Rune Strand Ødegård").toList) =
      .ok (("Rune Strand Odegard").toList) := by
  refine ⟨?_, by decide⟩
  intro s h
  induction s with
  | nil => rfl
  | cons c cs ih =>
    have hc := h c (List.mem_cons_self _ _)
    have hcs := ih (fun x hx => h x (List.mem_cons_of_mem _ hx))
    have hrc : replaceChar c = .ok (stripCharPure c) := by
      cases hn : unicodeName c with
      | none => rw [hn] at hc; cases hc
      | some d =>
        simp only [replaceChar, stripCharPure, hn]
        cases hio : indexOfSeq ((" WITH ").toList) d with
        | none => rfl
        | some i =>
          show (match unicodeLookup (d.take i) with
                | some base => Except.ok base
                | none => Except.ok c) =
              Except.ok ((unicodeLookup (d.take i)).getD c)
          cases unicodeLookup (d.take i) with
          | none => rfl
          | some b => rfl
    show mapME replaceChar (c :: cs) = .ok ((c :: cs).map stripCharPure)
    simp only [mapME, hrc, List.map_cons]
    rw [show mapME replaceChar cs = strip_diacritics cs from rfl, hcs]

/-- Witness for claim C8 as amended: a short all-named string maps through
    the per-character rule. -/
theorem strip_diacritics_amended_witness :
    strip_diacritics (("Ød").toList) = .ok (("Od").toList) :=
  strip_diacritics_amended.1 (("Ød").toList) (by decide)

/-! ## Claim C5: personal-communication remapping -/

/-- Counterexample to claim C5: a personal-communication source that carries
    its own title does not keep it — the glenglat conversion overwrites the
    title with the default unconditionally. -/
theorem convert_csl_title_counterexample :
    convert_source_to_csl pcSource .literal false =
      .ok [(("id").toList, .s (("mc2024").toList)),
           (("citation-key").toList, .s (("mc2024").toList)),
           (("issued").toList, .issued 2024),
           (("type").toList, .s (("personal_communication").toList)),
           (("title").toList, .s (("Personal communication").toList))] ∧
    pcSource.title = some (("Ice temperatures").toList) ∧
    (("Ice temperatures").toList : Str) ≠ ("Personal communication").toList :=
  ⟨by decide, by decide, by decide⟩

/-- Looking a key up in a filtered CSL dictionary skips an entry with a
    different key, whether or not the entry is kept. -/
theorem lookup_cslKeep_skip (k : Str) (kv : Str × Option CslValue)
    (l : List (Str × Option CslValue)) (hne : k ≠ kv.1) :
    List.lookup k (List.filterMap cslKeep (kv :: l)) =
      List.lookup k (List.filterMap cslKeep l) := by
  rw [List.filterMap_cons]
  obtain ⟨k', v?⟩ := kv
  cases v? with
  | none => rfl
  | some v =>
    have hb : (k == k') = false := beq_eq_false_iff_ne.mpr hne
    by_cases htv : truthyVal v = true
    · simp [cslKeep, htv, List.lookup, hb]
    · have htv' : truthyVal v = false := Bool.eq_false_iff.mpr htv
      simp [cslKeep, htv']

/-- Looking a key up in a filtered CSL dictionary finds a truthy entry with
    that key at the head. -/
theorem lookup_cslKeep_found (k : Str) (v : CslValue)
    (l : List (Str × Option CslValue)) (ht : truthyVal v = true) :
    List.lookup k (List.filterMap cslKeep ((k, some v) :: l)) = some v := by
  rw [List.filterMap_cons]
  simp [cslKeep, ht, List.lookup]

/-- Claim C5 as amended: for every source of type personal-communication,
    the conversion emits the remapped type personal_communication and the
    title Personal communication unconditionally — an existing title is
    overwritten, not kept (the essd.py variant of the conversion applies the
    default only when no title is set; the glenglat.py conversion embedded
    here does not). -/
theorem convert_csl_personal_communication
    (source : Source) (nl : NonLatin) (zk : Bool) (out : List (Str × CslValue))
    (h : convert_source_to_csl source nl zk = .ok out)
    (ht : source.srcType = some (("personal-communication").toList)) :
    List.lookup (("type").toList) out =
      some (.s (("personal_communication").toList)) ∧
    List.lookup (("title").toList) out =
      some (.s (("Personal communication").toList)) := by
  have hout : ∃ a e, out = buildCsl source zk a e := by
    unfold convert_source_to_csl at h
    cases ha : parsePersonList nl source.author with
    | error e => rw [ha] at h; cases h
    | ok a =>
      rw [ha] at h
      cases he : parsePersonList nl source.editor with
      | error e2 => rw [he] at h; cases h
      | ok e =>
        rw [he] at h
        exact ⟨a, e, (Except.ok.inj h).symm⟩
  obtain ⟨authors, editors, rfl⟩ := hout
  simp only [buildCsl, ht, if_true]
  simp only [List.cons_append]
  constructor
  · rw [lookup_cslKeep_skip _ _ _
      (show ("type").toList ≠ ("id").toList by decide)]
    rw [lookup_cslKeep_skip _ _ _
      (show ("type").toList ≠ ("citation-key").toList by decide)]
    rw [lookup_cslKeep_skip _ _ _
      (show ("type").toList ≠ ("author").toList by decide)]
    rw [lookup_cslKeep_skip _ _ _
      (show ("type").toList ≠ ("issued").toList by decide)]
    exact lookup_cslKeep_found _ _ _ (by decide)
  · rw [lookup_cslKeep_skip _ _ _
      (show ("title").toList ≠ ("id").toList by decide)]
    rw [lookup_cslKeep_skip _ _ _
      (show ("title").toList ≠ ("citation-key").toList by decide)]
    rw [lookup_cslKeep_skip _ _ _
      (show ("title").toList ≠ ("author").toList by decide)]
    rw [lookup_cslKeep_skip _ _ _
      (show ("title").toList ≠ ("issued").toList by decide)]
    rw [lookup_cslKeep_skip _ _ _
      (show ("title").toList ≠ ("type").toList by decide)]
    exact lookup_cslKeep_found _ _ _ (by decide)

/-- Witness for claim C5 as amended, at the concrete personal-communication
    fixture. -/
theorem convert_csl_personal_communication_witness :
    List.lookup (("type").toList)
        [(("id").toList, CslValue.s (("mc2024").toList)),
         (("citation-key").toList, CslValue.s (("mc2024").toList)),
         (("issued").toList, CslValue.issued 2024),
         (("type").toList, CslValue.s (("personal_communication").toList)),
         (("title").toList, CslValue.s (("Personal communication").toList))] =
      some (CslValue.s (("personal_communication").toList)) ∧
    List.lookup (("title").toList)
        [(("id").toList, CslValue.s (("mc2024").toList)),
         (("citation-key").toList, CslValue.s (("mc2024").toList)),
         (("issued").toList, CslValue.issued 2024),
         (("type").toList, CslValue.s (("personal_communication").toList)),
         (("title").toList, CslValue.s (("Personal communication").toList))] =
      some (CslValue.s (("Personal communication").toList)) :=
  convert_csl_personal_communication pcSource .literal false _ (by decide) (by decide)

/-! ## Claim C6: the ESSD round-trip -/

/-- Stripping braces from a brace-free string changes nothing. -/
theorem strip_curly_braces_of_no_brace (t : Str) (h : hasBrace t = false) :
    strip_curly_braces t = t := by
  apply List.filter_eq_self.mpr
  intro c hc
  cases hb : (decide (c = '\x7b') || decide (c = '\x7d')) with
  | false => simp [hb]
  | true =>
    exfalso
    have h2 : hasBrace t = true := List.any_eq_true.mpr ⟨c, hc, hb⟩
    rw [h] at h2
    cases h2

/-- When the person pattern matched with no bracketed Latin phrase, the name
    group spans the whole title. -/
theorem matchPerson_latin_none (s : Str) (m : PersonMatch)
    (h : matchPersonRegex s = some m) (hl : m.latin = none) : m.name = m.title := by
  cases hsi : splitIdent s with
  | none =>
    unfold matchPersonRegex at h
    rw [hsi] at h
    cases h
  | some tri =>
    obtain ⟨t, orc, em⟩ := tri
    cases hmt : matchTitle t with
    | none =>
      simp only [matchPersonRegex, hsi, hmt] at h
      exact Option.noConfusion h
    | some nl =>
      obtain ⟨nm, lat⟩ := nl
      simp only [matchPersonRegex, hsi, hmt] at h
      have hm : m = ⟨t, nm, lat, orc, em⟩ := (Option.some.inj h).symm
      subst hm
      simp only at hl ⊢
      simp only [matchTitle] at hmt
      split at hmt
      · split at hmt
        · have hp := Option.some.inj hmt
          exact (congrArg Prod.fst hp).symm
        · cases hmt
      · split at hmt
        · have hp := Option.some.inj hmt
          have h2 := congrArg Prod.snd hp
          simp only at h2
          rw [hl] at h2
          cases h2
        · cases hmt

/-- Every successful non-Latin-only inference carries an original-name
    split. -/
theorem infer_some_name_isSome (latin n : Str) (inf : InferredParts)
    (h : infer_name_parts latin (some n) = .ok (some inf)) :
    inf.name.isSome = true := by
  simp only [infer_name_parts] at h
  repeat' split at h
  all_goals first
    | exact Except.noConfusion h
    | exact Option.noConfusion (Except.ok.inj h)
    | (have h2 := Option.some.inj (Except.ok.inj h); subst h2; rfl)

/-- On a braceless-or-braced title with no original name, the parsed Latin
    full name and the parsed title coincide whenever the latin group equals
    the raw title. -/
theorem parsePersonGroups_none_eq (s : Str) (m : PersonMatch) (p : ParsedPerson)
    (h : parsePersonGroups s m none m.title = .ok p) :
    p.name = none ∧ p.latin.name = p.title := by
  unfold parsePersonGroups at h
  by_cases hb : hasBrace m.title = true
  · rw [if_pos hb] at h
    cases hpb : parseBracedName m.title s m.title with
    | error e =>
      simp only [hpb] at h
      exact Except.noConfusion h
    | ok lp =>
      simp only [hpb] at h
      have hp := (Except.ok.inj h).symm
      subst hp
      refine ⟨rfl, ?_⟩
      unfold parseBracedName at hpb
      split at hpb
      · cases hpb
      · split at hpb
        · cases hpb
        · have hlp := (Except.ok.inj hpb).symm
          subst hlp
          rfl
  · rw [if_neg hb] at h
    have hbf : hasBrace m.title = false := Bool.eq_false_iff.mpr hb
    cases hi : infer_name_parts m.title none with
    | error e =>
      simp only [hi] at h
      exact Except.noConfusion h
    | ok o =>
      cases o with
      | none =>
        simp only [hi] at h
        exact Except.noConfusion h
      | some inf =>
        simp only [hi] at h
        have hp := (Except.ok.inj h).symm
        subst hp
        exact ⟨rfl, (strip_curly_braces_of_no_brace m.title hbf).symm⟩

/-- A parse with a bracketed Latin phrase always produces an original-name
    record. -/
theorem parsePersonGroups_some_name (s : Str) (m : PersonMatch) (n latinStr : Str)
    (p : ParsedPerson) (h : parsePersonGroups s m (some n) latinStr = .ok p) :
    p.name.isSome = true := by
  unfold parsePersonGroups at h
  by_cases hb : hasBrace m.title = true
  · rw [if_pos hb] at h
    cases hpb : parseBracedName m.title s latinStr with
    | error e =>
      simp only [hpb] at h
      exact Except.noConfusion h
    | ok lp =>
      cases hpb2 : parseBracedName m.title s n with
      | error e =>
        simp only [hpb, hpb2] at h
        exact Except.noConfusion h
      | ok np =>
        simp only [hpb, hpb2] at h
        have hp := (Except.ok.inj h).symm
        subst hp
        rfl
  · rw [if_neg hb] at h
    cases hi : infer_name_parts latinStr (some n) with
    | error e =>
      simp only [hi] at h
      exact Except.noConfusion h
    | ok o =>
      cases o with
      | none =>
        simp only [hi] at h
        exact Except.noConfusion h
      | some inf =>
        simp only [hi] at h
        have hname := infer_some_name_isSome latinStr n inf hi
        have hp := (Except.ok.inj h).symm
        subst hp
        cases hin : inf.name with
        | none => rw [hin] at hname; cases hname
        | some sp => simp only [hin]; rfl

/-- A successful parse with no original name has its Latin full name equal
    to the output title. -/
theorem parse_noname_latin_eq_title (s : Str) (p : ParsedPerson)
    (h : parse_person_string s = .ok p) (hn : p.name = none) :
    p.latin.name = p.title := by
  unfold parse_person_string at h
  cases hm : matchPersonRegex s with
  | none =>
    rw [hm] at h
    cases h
  | some m =>
    simp only [hm] at h
    cases hml : m.latin with
    | some l =>
      simp only [hml] at h
      have hsome := parsePersonGroups_some_name s m m.name l p h
      rw [hn] at hsome
      cases hsome
    | none =>
      simp only [hml] at h
      have hnm := matchPerson_latin_none s m hm hml
      rw [hnm] at h
      exact (parsePersonGroups_none_eq s m p h).2

/-- Counterexample to claim C6: the braced Latin token renders to family
    and initials, not to its title with braces stripped. -/
theorem essd_roundtrip_counterexample :
    essd_roundtrip (("Emmanuel \x7bLe Meur\x7d").toList) =
      .ok (("Le Meur, E.").toList) ∧
    strip_curly_braces (("Emmanuel \x7bLe Meur\x7d").toList) =
      ("Emmanuel Le Meur").toList ∧
    (("Le Meur, E.").toList : Str) ≠ ("Emmanuel Le Meur").toList :=
  ⟨by decide, by decide, by decide⟩

/-- Claim C6 as amended: the round-trip reproduces the visible title with
    braces stripped exactly for tokens with no bracketed transliteration
    whose text classifies as neither Latin nor Cyrillic; for Latin and
    Cyrillic tokens the rendering is family-comma-initials instead. -/
theorem essd_roundtrip_amended (s : Str) (p : ParsedPerson)
    (h : parse_person_string s = .ok p) (hn : p.name = none)
    (hs : isLatinOrCyrillic p.latin.name = false) :
    essd_roundtrip s = .ok p.title := by
  unfold essd_roundtrip
  rw [h]
  show Except.ok (render_parsed_for_essd p) = .ok p.title
  have h1 : render_parsed_for_essd p = render_name_for_essd p.latin := by
    unfold render_parsed_for_essd
    rw [hn]
  rw [h1]
  unfold render_name_for_essd
  rw [hs, if_neg Bool.false_ne_true]
  rw [parse_noname_latin_eq_title s p h hn]

/-- Witness for claim C6 as amended: a bare two-character Chinese token
    round-trips to its own title. -/
theorem essd_roundtrip_amended_witness :
    essd_roundtrip (("时银").toList) = .ok (("时银").toList) :=
  essd_roundtrip_amended (("时银").toList)
    ⟨("时银").toList, none,
     ⟨("时银").toList, ("时银").toList, []⟩, none, none⟩
    (by decide) rfl (by decide)

/-! ## Claim C9: batching of errors in render_author_list -/

/-- When every token resolves, the gathering loop succeeds and the missing
    list is exactly the tokens with no registry match, in input order. -/
theorem gather_collects (registry : List Person) :
    ∀ strings : List Str,
      (∀ s ∈ strings, exceptIsOk (resolveToken registry s) = true) →
      ∃ found, gatherPeople registry strings =
        .ok (found, strings.filter (missesRegistry registry)) := by
  intro strings
  induction strings with
  | nil => exact fun _ => ⟨[], rfl⟩
  | cons s rest ih =>
    intro h
    have hs := h s (List.mem_cons_self _ _)
    obtain ⟨found, hrest⟩ := ih (fun x hx => h x (List.mem_cons_of_mem _ hx))
    cases hr : resolveToken registry s with
    | error e =>
      rw [show exceptIsOk (resolveToken registry s) =
        exceptIsOk (Except.error e) from congrArg _ hr] at hs
      cases hs
    | ok r =>
      cases r with
      | some f =>
        refine ⟨f :: found, ?_⟩
        have hm : missesRegistry registry s = false := by
          simp [missesRegistry, hr]
        simp only [gatherPeople, hr, hrest, List.filter_cons, hm]
        rfl
      | none =>
        refine ⟨found, ?_⟩
        have hm : missesRegistry registry s = true := by
          simp [missesRegistry, hr]
        simp only [gatherPeople, hr, hrest, List.filter_cons, hm]
        rfl

/-- Counterexample to claim C9: with two malformed tokens, rendering stops
    at the first and reports only it; the second malformed token is absent
    from the report. -/
theorem render_author_list_counterexample :
    render_author_list [("((").toList, ("))").toList] [] =
      .error (.invalidPerson (("((").toList)) ∧
    exceptIsOk (parse_person_string (("))").toList)) = false ∧
    (("((").toList : Str) ≠ ("))").toList :=
  ⟨by decide, by decide, by decide⟩

/-- Claim C9 as amended: only unresolved tokens are batch-collected — when
    every token parses and resolves without error and at least one has no
    registry match, render_author_list reports all unmatched tokens together
    in one error; malformed or ambiguous tokens instead raise at the first
    occurrence. -/
theorem render_author_list_amended (strings : List Str) (registry : List Person)
    (h : ∀ s ∈ strings, exceptIsOk (resolveToken registry s) = true)
    (hm : strings.filter (missesRegistry registry) ≠ []) :
    render_author_list strings registry =
      .error (.peopleNotFound (strings.filter (missesRegistry registry))) := by
  obtain ⟨found, hg⟩ := gather_collects registry strings h
  simp only [render_author_list, hg]
  rw [if_neg hm]

/-- Witness for claim C9 as amended: two well-formed tokens with no registry
    match are both reported in one error. -/
theorem render_author_list_amended_witness :
    render_author_list [("Aa Bb").toList, ("Cc Dd").toList] [] =
      .error (.peopleNotFound [("Aa Bb").toList, ("Cc Dd").toList]) :=
  render_author_list_amended [("Aa Bb").toList, ("Cc Dd").toList] []
    (by decide) (by decide)

/-! ## Claim C10: uniqueness of the family name in the title -/

theorem insertSorted_perm (le : α → α → Bool) (x : α) (l : List α) :
    (insertSorted le x l).Perm (x :: l) := by
  induction l with
  | nil => exact List.Perm.refl _
  | cons y ys ih =>
    unfold insertSorted
    split
    · exact (ih.cons y).trans (List.Perm.swap x y ys)
    · exact List.Perm.refl _

theorem sortByKey_perm (le : α → α → Bool) (l : List α) :
    (sortByKey le l).Perm l := by
  induction l with
  | nil => exact List.Perm.refl _
  | cons x xs ih =>
    exact (insertSorted_perm le x (sortByKey le xs)).trans (ih.cons x)

/-- Every element of a successfully mapped list has a successful image in
    the output. -/
theorem mapME_mem (f : α → Except Err β) :
    ∀ (l : List α) (l' : List β), mapME f l = .ok l' →
      ∀ x ∈ l, ∃ y ∈ l', f x = .ok y := by
  intro l
  induction l with
  | nil => intro l' _ x hx; cases hx
  | cons a as ih =>
    intro l' h x hx
    cases hf : f a with
    | error e =>
      simp only [mapME, hf] at h
      exact Except.noConfusion h
    | ok y =>
      simp only [mapME, hf] at h
      cases hrest : mapME f as with
      | error e =>
        simp only [hrest] at h
        exact Except.noConfusion h
      | ok ys =>
        simp only [hrest] at h
        have hl' := (Except.ok.inj h).symm
        subst hl'
        rcases List.mem_cons.mp hx with rfl | hx2
        · exact ⟨y, List.mem_cons_self _ _, hf⟩
        · obtain ⟨z, hz1, hz2⟩ := ih ys hrest x hx2
          exact ⟨z, List.mem_cons_of_mem _ hz1, hz2⟩

/-- A strict effectful map cannot succeed when some element fails. -/
theorem mapME_error_of_mem (f : α → Except Err β) :
    ∀ (l : List α) (x : α), x ∈ l → (∀ y, f x ≠ .ok y) →
      ∀ res, mapME f l ≠ .ok res := by
  intro l
  induction l with
  | nil => intro x hx; cases hx
  | cons a as ih =>
    intro x hx hfx res h
    rcases List.mem_cons.mp hx with rfl | hx2
    · cases hf : f x with
      | error e =>
        simp only [mapME, hf] at h
        exact Except.noConfusion h
      | ok y => exact hfx y hf
    · cases hf : f a with
      | error e =>
        simp only [mapME, hf] at h
        exact Except.noConfusion h
      | ok y =>
        simp only [mapME, hf] at h
        cases hrest : mapME f as with
        | error e =>
          simp only [hrest] at h
          exact Except.noConfusion h
        | ok ys => exact ih x hx2 hfx ys hrest

/-- Claim C10: uppercase_family_name succeeds exactly when the family name
    occurs exactly once as a whole word (at the start, after a space, or
    after an opening square bracket, and followed by a space, a closing
    bracket, or the end) in the name — zero and repeated occurrences are
    errors — and consequently the author list fails to render whenever some
    resolved person has a family name that is absent from, or repeated in,
    their stored Latin name. -/
theorem uppercase_family_name_spec :
    (∀ nm fam : Str,
      (exceptIsOk (uppercase_family_name nm fam) = true ↔ famCount fam nm = 1)) ∧
    (∀ (strings : List Str) (registry : List Person) (found : List FoundPerson),
      gatherPeople registry strings = .ok (found, []) →
      (∃ q ∈ found, famCount q.latin.family q.latin.name ≠ 1) →
      exceptIsOk (render_author_list strings registry) = false) := by
  constructor
  · intro nm fam
    constructor
    · intro h
      by_contra hne
      have hc : (decide (famCount fam nm = 0) || decide (1 < famCount fam nm)) = true := by
        rw [Bool.or_eq_true, decide_eq_true_eq, decide_eq_true_eq]
        omega
      unfold uppercase_family_name at h
      rw [if_pos hc] at h
      cases h
    · intro h
      have hc : (decide (famCount fam nm = 0) || decide (1 < famCount fam nm)) = false := by
        rw [Bool.or_eq_false_iff, decide_eq_false_iff_not, decide_eq_false_iff_not]
        omega
      unfold uppercase_family_name
      rw [hc]
      rfl
  · intro strings registry found hg hbad
    obtain ⟨q, hq, hqc⟩ := hbad
    simp only [render_author_list, hg, if_true]
    cases hk : mapME keyedEntry found with
    | error e => rfl
    | ok keyed =>
      obtain ⟨y, hy, hfy⟩ := mapME_mem keyedEntry found keyed hk q hq
      have hy2 : y.2 = q := by
        unfold keyedEntry at hfy
        cases hsk : sortKeyOf q with
        | error e =>
          rw [hsk] at hfy
          exact Except.noConfusion hfy
        | ok k =>
          rw [hsk] at hfy
          rw [← Except.ok.inj hfy]
      have hysort : y ∈ sortByKey (fun a b => pairLe a.1 b.1) keyed :=
        ((sortByKey_perm _ keyed).mem_iff).mpr hy
      have hfail : ∀ z, renderEntry y ≠ .ok z := by
        intro z hz
        have hcond : (decide (famCount y.2.latin.family y.2.latin.name = 0)
            || decide (1 < famCount y.2.latin.family y.2.latin.name)) = true := by
          rw [Bool.or_eq_true, decide_eq_true_eq, decide_eq_true_eq, hy2]
          omega
        unfold renderEntry at hz
        unfold uppercase_family_name at hz
        rw [if_pos hcond] at hz
        exact Except.noConfusion hz
      show exceptIsOk
          (match mapME renderEntry (sortByKey (fun a b => pairLe a.1 b.1) keyed) with
            | Except.error e => (Except.error e : Except Err (List Str))
            | Except.ok outs => Except.ok (dedupFirst outs)) = false
      cases ho : mapME renderEntry (sortByKey (fun a b => pairLe a.1 b.1) keyed) with
      | error e => rfl
      | ok outs =>
        exact absurd ho (mapME_error_of_mem renderEntry _ y hysort hfail outs)

/-- Witness for claim C10: a registry person whose family name does not
    occur in the stored Latin name makes the author list rendering fail. -/
theorem uppercase_family_name_spec_witness :
    exceptIsOk (render_author_list [("Xx Yy").toList] [regPersonBad]) = false :=
  uppercase_family_name_spec.2 [("Xx Yy").toList] [regPersonBad]
    [⟨⟨("Aa Bb").toList, ("Zz").toList, ("Qq").toList⟩, none, none⟩]
    (by decide)
    ⟨⟨⟨("Aa Bb").toList, ("Zz").toList, ("Qq").toList⟩, none, none⟩,
     by decide, by decide⟩

end Glenglat
